import Mathlib

/-!
Verification development for the easage BIG-archive codec.

The embedding models the Rust sources byte-for-byte:
* `src/src/archive.rs` — the reader (`Kind::try_from_bytes`, `Archive::read_kind`,
  `read_size`, `read_len`, `read_data_start`, `read_secret_data`,
  `read_entry_metadata_table`, `get_bytes_via_table`);
* `src/src/packer.rs` — the packer (`pack`, and the name transform of
  `pack_directory`).

Buffers are byte lists (`List Nat`); machine `u32` casts are modelled with
explicit `% 2 ^ 32`.  Rust operations that can panic (unchecked slice
indexing, the `name_len - 1` underflow in table parsing) are modelled with an
explicit `panic` outcome in `PResult`, next to `ok` and `err` (typed errors
from `src/src/error.rs`).  Names are modelled as their UTF-8 byte sequences;
`String::from_utf8_lossy` is the identity on the valid-UTF-8 names that reach
it in the properties below, so string equality coincides with byte equality.
-/

deriving instance DecidableEq for Except

namespace Easage

/-- A byte buffer (each element a byte value). -/
abbrev Buffer := List Nat

/-- `Kind` from archive.rs: the two recognised archive sub-formats. -/
inductive Kind
  | big4
  | bigF
deriving DecidableEq, Repr

/-- The four ASCII bytes of the tag BIG4. -/
def magicBIG4 : List Nat := [66, 73, 71, 52]

/-- The four ASCII bytes of the tag BIGF. -/
def magicBIGF : List Nat := [66, 73, 71, 70]

/-- The error enum of `src/src/error.rs` (payloads kept where the claims
observe them; strings and io details are modelled as byte lists / dropped). -/
inductive Error
  | PathNotFound (path : List Nat)
  | AttemptCreateEmpty
  | IncompleteArchive (actual_len expected_len read_start read_end : Nat)
  | NoSuchEntry
  | Io
  | InvalidMagic (magic : List Nat)
  | Custom
deriving DecidableEq, Repr

/-- Outcome of a Rust operation that may return `Ok`, return `Err`, or panic
(unchecked slice indexing / integer underflow). -/
inductive PResult (α : Type)
  | ok (a : α)
  | err (e : Error)
  | panic
deriving DecidableEq, Repr

/-- `Kind::try_from_bytes` (archive.rs lines 22-28): match the whole slice
against the two magics, otherwise `InvalidMagic` carrying a copy of the
input bytes. -/
def Kind.try_from_bytes (bytes : List Nat) : Except Error Kind :=
  if bytes = magicBIG4 then .ok .big4
  else if bytes = magicBIGF then .ok .bigF
  else .error (.InvalidMagic bytes)

/-- The 4 bytes `pack` writes for a `Kind` (packer.rs lines 84-87). -/
def Kind.bytes : Kind → List Nat
  | .big4 => magicBIG4
  | .bigF => magicBIGF

/-- Big-endian u32 value of four bytes. -/
def beU32 (b0 b1 b2 b3 : Nat) : Nat := 2 ^ 24 * b0 + 2 ^ 16 * b1 + 2 ^ 8 * b2 + b3

/-- Little-endian u32 value of four bytes. -/
def leU32 (b0 b1 b2 b3 : Nat) : Nat := b0 + 2 ^ 8 * b1 + 2 ^ 16 * b2 + 2 ^ 24 * b3

/-- Read a big-endian u32 from the first four bytes of a list
(`byteorder::ReadBytesExt::read_u32::<BigEndian>`); `none` models the
`UnexpectedEof` io error when fewer than 4 bytes remain. -/
def u32FromBE? : List Nat → Option Nat
  | b0 :: b1 :: b2 :: b3 :: _ => some (beU32 b0 b1 b2 b3)
  | _ => none

/-- Read a little-endian u32 from the first four bytes of a list. -/
def u32FromLE? : List Nat → Option Nat
  | b0 :: b1 :: b2 :: b3 :: _ => some (leU32 b0 b1 b2 b3)
  | _ => none

/-- The four bytes `write_u32::<BigEndian>(v as u32)` emits. -/
def encodeBE32 (v : Nat) : List Nat :=
  [v / 2 ^ 24 % 256, v / 2 ^ 16 % 256, v / 2 ^ 8 % 256, v % 256]

/-- The four bytes `write_u32::<LittleEndian>(v as u32)` emits. -/
def encodeLE32 (v : Nat) : List Nat :=
  [v % 256, v / 2 ^ 8 % 256, v / 2 ^ 16 % 256, v / 2 ^ 24 % 256]

/-- `EntryInfo` from archive.rs: per-entry metadata (name kept as its
UTF-8 bytes). -/
structure EntryInfo where
  offset : Nat
  len : Nat
  name : List Nat
deriving DecidableEq, Repr

/-- The entry table: name-to-record mapping with unique keys, modelling
`EntryInfoTable = HashMap<String, EntryInfo>` by its observable behaviour
(lookup, and iteration as a multiset of pairs). -/
abbrev EntryInfoTable := List (List Nat × EntryInfo)

/-- `HashMap::insert`: replace any binding of the key, otherwise add one. -/
def tableInsert (t : EntryInfoTable) (k : List Nat) (v : EntryInfo) : EntryInfoTable :=
  t.filter (fun p => decide (p.1 ≠ k)) ++ [(k, v)]

/-- `HashMap::get`. -/
def tableGet (t : EntryInfoTable) (k : List Nat) : Option EntryInfo :=
  (t.find? (fun p => decide (p.1 = k))).map Prod.snd

/-- `Archive::read_kind` (archive.rs lines 111-113): slice `[0..4]`
(panicking when the buffer is shorter than 4 bytes) and classify it. -/
def Archive.read_kind (buf : Buffer) : PResult Kind :=
  if 4 ≤ buf.length then
    match Kind.try_from_bytes (buf.take 4) with
    | .ok k => .ok k
    | .error e => .err e
  else .panic

/-- `Archive::read_size` (archive.rs lines 118-121): little-endian u32 at
offset 4, panicking (unchecked slice `[4..8]`) when the buffer is shorter
than 8 bytes. -/
def Archive.read_size (buf : Buffer) : PResult Nat :=
  match u32FromLE? (buf.drop 4) with
  | some v => .ok v
  | none => .panic

/-- `Archive::read_len` (archive.rs lines 126-129): big-endian u32 at
offset 8, panicking when the buffer is shorter than 12 bytes. -/
def Archive.read_len (buf : Buffer) : PResult Nat :=
  match u32FromBE? (buf.drop 8) with
  | some v => .ok v
  | none => .panic

/-- `Archive::read_data_start` (archive.rs lines 134-137): big-endian u32 at
offset 12, panicking when the buffer is shorter than 16 bytes. -/
def Archive.read_data_start (buf : Buffer) : PResult Nat :=
  match u32FromBE? (buf.drop 12) with
  | some v => .ok v
  | none => .panic

/-- `BufRead::read_until(b'\0')`: the bytes consumed — everything up to and
including the first NUL, or all remaining bytes when no NUL occurs. -/
def takeUntilNul : List Nat → List Nat
  | [] => []
  | b :: rest => if b = 0 then [0] else b :: takeUntilNul rest

/-- One iteration of the table-parsing loop in
`Archive::read_entry_metadata_table` (archive.rs lines 175-187): two
big-endian u32 reads (io error at EOF), then `read_until(b'\0')`; a zero-byte
name read makes `buf[..name_len-1]` underflow and panic, otherwise the name
is the bytes read minus their final byte.  Returns the record and the new
cursor position. -/
def parseRecord (buf : Buffer) (pos : Nat) : PResult (EntryInfo × Nat) :=
  match u32FromBE? (buf.drop pos), u32FromBE? (buf.drop (pos + 4)) with
  | some off, some len =>
    let nameBytes := takeUntilNul (buf.drop (pos + 8))
    if nameBytes.length = 0 then .panic
    else .ok (⟨off, len, nameBytes.take (nameBytes.length - 1)⟩, pos + 8 + nameBytes.length)
  | _, _ => .err .Io

/-- The `for _ in 0..len` loop of `read_entry_metadata_table`: parse `n`
records starting at `pos`, returning them in table order with the final
cursor position. -/
def parseRecords (buf : Buffer) : Nat → Nat → PResult (List EntryInfo × Nat)
  | 0, pos => .ok ([], pos)
  | n + 1, pos =>
    match parseRecord buf pos with
    | .ok (r, pos') =>
      (match parseRecords buf n pos' with
       | .ok (rs, p) => .ok (r :: rs, p)
       | .err e => .err e
       | .panic => .panic)
    | .err e => .err e
    | .panic => .panic

/-- `table.insert(name.clone(), EntryInfo { .. })` folded over the parsed
records, in table order. -/
def buildTable (rs : List EntryInfo) : EntryInfoTable :=
  rs.foldl (fun t r => tableInsert t r.name r) []

/-- `Archive::read_entry_metadata_table` (archive.rs lines 167-190):
read the entry count, seek to 16, parse that many records and build the
name-to-record map. -/
def Archive.read_entry_metadata_table (buf : Buffer) : PResult EntryInfoTable :=
  match Archive.read_len buf with
  | .ok n =>
    (match parseRecords buf n 16 with
     | .ok (rs, _) => .ok (buildTable rs)
     | .err e => .err e
     | .panic => .panic)
  | .err e => .err e
  | .panic => .panic

/-- `Archive::get_bytes_via_table` (archive.rs lines 202-211): look the name
up; on a hit, slice `[offset .. offset+len]` unchecked — a panic when the
recorded end exceeds the buffer. -/
def Archive.get_bytes_via_table (buf : Buffer) (table : EntryInfoTable)
    (name : List Nat) : PResult (Option (List Nat)) :=
  match tableGet table name with
  | some e =>
    if e.offset + e.len ≤ buf.length then .ok (some ((buf.drop e.offset).take e.len))
    else .panic
  | none => .ok none

/-- The `table_size` recomputation inside `Archive::read_secret_data`
(archive.rs lines 148-152): per-record `(4 + 4 + name.len() + 1) as u32`,
summed as u32 (wrapping). -/
def secretTableSize (table : EntryInfoTable) : Nat :=
  (table.foldl (fun s p => s + (4 + 4 + p.2.name.length + 1) % 2 ^ 32) 0) % 2 ^ 32

/-- `Archive::read_secret_data` (archive.rs lines 147-162): derive
`secret_offset = HEADER_LEN + table_size` (u32 addition), return `none` when
it equals `data_start`, otherwise slice `[secret_offset .. data_start]`
unchecked — a panic when `secret_offset > data_start` or `data_start`
exceeds the buffer. -/
def Archive.read_secret_data (buf : Buffer) (table : EntryInfoTable) :
    PResult (Option (List Nat)) :=
  match Archive.read_data_start buf with
  | .ok ds =>
    let so := (16 + secretTableSize table) % 2 ^ 32
    if so = ds then .ok none
    else if so ≤ ds ∧ ds ≤ buf.length then .ok (some ((buf.drop so).take (ds - so)))
    else .panic
  | .err e => .err e
  | .panic => .panic

/-- The on-disk size of one table record in `pack`
(packer.rs lines 73-77): offset + length + name bytes + NUL. -/
def recSize (e : List Nat × List Nat) : Nat := 4 + 4 + e.1.length + 1

/-- `table_size` in `pack`: sum of the record sizes. -/
def tableSz (es : List (List Nat × List Nat)) : Nat := (es.map recSize).sum

/-- `total_size_of_entries` in `pack`: sum of the data lengths. -/
def sumLens (es : List (List Nat × List Nat)) : Nat :=
  (es.map (fun e => e.2.length)).sum

/-- The entry-metadata-table loop of `pack` (packer.rs lines 97-114): each
record is big-endian offset, big-endian length, name bytes, one NUL; the
offset accumulates from `data_start` by the previous entry's length. -/
def writeTable : List (List Nat × List Nat) → Nat → List Nat
  | [], _ => []
  | e :: es, off =>
    encodeBE32 off ++ encodeBE32 e.2.length ++ e.1 ++ [0] ++ writeTable es (off + e.2.length)

/-- The offsets `pack` records for the entries, in table order. -/
def packOffsets : List (List Nat × List Nat) → Nat → List Nat
  | [], _ => []
  | e :: es, off => off :: packOffsets es (off + e.2.length)

/-- `packer::pack` (packer.rs lines 68-123): reject an empty entry list,
else emit header (magic, little-endian total size, big-endian count,
big-endian data start), the metadata table, and the concatenated entry
data. -/
def pack (entries : List (List Nat × List Nat)) (kind : Kind) : Except Error Buffer :=
  if entries = [] then .error .AttemptCreateEmpty
  else
    .ok (kind.bytes
      ++ encodeLE32 (16 + tableSz entries + sumLens entries)
      ++ encodeBE32 entries.length
      ++ encodeBE32 (16 + tableSz entries)
      ++ writeTable entries (16 + tableSz entries)
      ++ (entries.map (fun e => e.2)).flatten)

/-- `str::trim_left_matches` with a literal pattern, via explicit fuel
(the Rust loop strips successive occurrences of the pattern from the
start; an empty pattern strips nothing). -/
def trimAux : Nat → List Nat → List Nat → List Nat
  | 0, _, s => s
  | fuel + 1, pat, s =>
    if pat ≠ [] ∧ pat.isPrefixOf s then trimAux fuel pat (s.drop pat.length) else s

/-- `name.trim_left_matches(strip_prefix)` as called by `pack_directory`
(packer.rs lines 39-41); `s.length` is always enough fuel. -/
def trim_left_matches (pat s : List Nat) : List Nat := trimAux s.length pat s

/-- The name transform of `pack_directory` (packer.rs lines 39-41): strip
only when a prefix was configured. -/
def stripName (sp : Option (List Nat)) (name : List Nat) : List Nat :=
  match sp with
  | some pat => trim_left_matches pat name
  | none => name

/-- The record a name resolves to after all overwrites: the last record with
that name in table order (the overwrite step of the insertion loop). -/
def lastNamed (rs : List EntryInfo) (k : List Nat) : Option EntryInfo :=
  rs.foldl (fun acc r => if r.name = k then some r else acc) none

/-- The records read back from a table that `pack` wrote: offsets and lengths
as the stored u32 values (truncated by the `as u32` casts), names as
written. -/
def readRecs : List (List Nat × List Nat) → Nat → List EntryInfo
  | [], _ => []
  | e :: es, off =>
    ⟨off % 2 ^ 32, e.2.length % 2 ^ 32, e.1⟩ :: readRecs es (off + e.2.length)

theorem find?_filter_ne (t : EntryInfoTable) (k q : List Nat) (h : q ≠ k) :
    (t.filter (fun p => decide (p.1 ≠ k))).find? (fun p => decide (p.1 = q)) =
      t.find? (fun p => decide (p.1 = q)) := by
  induction t with
  | nil => rfl
  | cons p t ih =>
    rw [List.filter_cons]
    by_cases hk : p.1 = k
    · have hq : ¬ p.1 = q := fun hq => h (hq ▸ hk)
      rw [if_neg (by simp [hk]), ih, List.find?_cons_of_neg _ (by simp [hq])]
    · rw [if_pos (by simp [hk])]
      by_cases hq : p.1 = q
      · rw [List.find?_cons_of_pos _ (by simp [hq]), List.find?_cons_of_pos _ (by simp [hq])]
      · rw [List.find?_cons_of_neg _ (by simp [hq]), List.find?_cons_of_neg _ (by simp [hq]), ih]

theorem find?_filter_self (t : EntryInfoTable) (k : List Nat) :
    (t.filter (fun p => decide (p.1 ≠ k))).find? (fun p => decide (p.1 = k)) = none := by
  induction t with
  | nil => rfl
  | cons p t ih =>
    rw [List.filter_cons]
    by_cases hk : p.1 = k
    · rw [if_neg (by simp [hk]), ih]
    · rw [if_pos (by simp [hk]), List.find?_cons_of_neg _ (by simp [hk]), ih]

theorem tableGet_tableInsert (t : EntryInfoTable) (k q : List Nat) (v : EntryInfo) :
    tableGet (tableInsert t k v) q = if q = k then some v else tableGet t q := by
  unfold tableGet tableInsert
  rw [List.find?_append]
  by_cases h : q = k
  · subst h
    rw [find?_filter_self, Option.none_or, if_pos rfl,
      List.find?_cons_of_pos _ (by simp)]
    rfl
  · have hkq : ¬ k = q := fun hh => h hh.symm
    rw [find?_filter_ne t k q h, if_neg h,
      List.find?_cons_of_neg _ (by simp [hkq]),
      show List.find? (fun p => decide (p.1 = q)) ([] : EntryInfoTable) = none from rfl,
      Option.or_none]

theorem foldl_lastNamed (k : List Nat) (rs : List EntryInfo) : ∀ acc,
    rs.foldl (fun a r => if r.name = k then some r else a) acc = (lastNamed rs k).or acc := by
  induction rs with
  | nil => intro acc; rw [List.foldl_nil, show lastNamed [] k = none from rfl, Option.none_or]
  | cons r rs ih =>
    intro acc
    have hl : lastNamed (r :: rs) k =
        (lastNamed rs k).or (if r.name = k then some r else none) := by
      simp only [lastNamed, List.foldl_cons]
      exact ih _
    rw [List.foldl_cons, ih, hl]
    cases lastNamed rs k with
    | some x => rfl
    | none =>
      rw [Option.none_or, Option.none_or]
      by_cases h : r.name = k
      · rw [if_pos h, if_pos h]; rfl
      · rw [if_neg h, if_neg h, Option.none_or]

theorem tableGet_foldl_insert (k : List Nat) (rs : List EntryInfo) : ∀ t,
    tableGet (rs.foldl (fun t r => tableInsert t r.name r) t) k =
      (lastNamed rs k).or (tableGet t k) := by
  induction rs with
  | nil => intro t; rw [List.foldl_nil, show lastNamed [] k = none from rfl, Option.none_or]
  | cons r rs ih =>
    intro t
    have hl : lastNamed (r :: rs) k =
        (lastNamed rs k).or (if r.name = k then some r else none) := by
      simp only [lastNamed, List.foldl_cons]
      exact foldl_lastNamed k rs _
    rw [List.foldl_cons, ih, tableGet_tableInsert, hl]
    cases lastNamed rs k with
    | some x => rfl
    | none =>
      rw [Option.none_or, Option.none_or]
      by_cases h : k = r.name
      · rw [if_pos h, if_pos h.symm]; rfl
      · rw [if_neg h, if_neg (fun hh => h hh.symm), Option.none_or]

theorem tableGet_buildTable (rs : List EntryInfo) (k : List Nat) :
    tableGet (buildTable rs) k = lastNamed rs k := by
  rw [buildTable, tableGet_foldl_insert,
    show tableGet [] k = none from rfl, Option.or_none]

theorem lastNamed_isSome_of_mem (rs : List EntryInfo) (r : EntryInfo) (h : r ∈ rs) :
    (lastNamed rs r.name).isSome = true := by
  induction rs with
  | nil => cases h
  | cons x rs ih =>
    have hl : lastNamed (x :: rs) r.name =
        (lastNamed rs r.name).or (if x.name = r.name then some x else none) := by
      simp only [lastNamed, List.foldl_cons]
      exact foldl_lastNamed r.name rs _
    rw [hl]
    rcases List.mem_cons.mp h with hx | hm
    · subst hx
      cases lastNamed rs r.name with
      | some y => rfl
      | none => rw [Option.none_or, if_pos rfl]; rfl
    · cases hor : lastNamed rs r.name with
      | some y => rfl
      | none =>
        have := ih hm
        rw [hor] at this
        cases this

theorem lastNamed_eq_none (rs : List EntryInfo) (k : List Nat)
    (h : ∀ r ∈ rs, r.name ≠ k) : lastNamed rs k = none := by
  induction rs with
  | nil => rfl
  | cons x rs ih =>
    have hl : lastNamed (x :: rs) k =
        (lastNamed rs k).or (if x.name = k then some x else none) := by
      simp only [lastNamed, List.foldl_cons]
      exact foldl_lastNamed k rs _
    rw [hl, ih (fun r hr => h r (List.mem_cons_of_mem x hr)),
      if_neg (h x (List.mem_cons_self x rs)), Option.none_or]

theorem lastNamed_of_nodup (rs : List EntryInfo) (r : EntryInfo) (hmem : r ∈ rs)
    (hnd : (rs.map EntryInfo.name).Nodup) : lastNamed rs r.name = some r := by
  induction rs with
  | nil => cases hmem
  | cons x rs ih =>
    simp only [List.map_cons, List.nodup_cons] at hnd
    have hl : lastNamed (x :: rs) r.name =
        (lastNamed rs r.name).or (if x.name = r.name then some x else none) := by
      simp only [lastNamed, List.foldl_cons]
      exact foldl_lastNamed r.name rs _
    rcases List.mem_cons.mp hmem with hx | hm
    · subst hx
      have hnone : lastNamed rs r.name = none := by
        refine lastNamed_eq_none rs r.name (fun r' hr' hname => ?_)
        exact hnd.1 (hname ▸ List.mem_map_of_mem EntryInfo.name hr')
      rw [hl, hnone, Option.none_or, if_pos rfl]
    · have hx : x.name ≠ r.name := by
        intro hEq
        exact hnd.1 (hEq ▸ List.mem_map_of_mem EntryInfo.name hm)
      rw [hl, ih hm hnd.2]
      rfl

/-- Claim C10 (confirmed): `Kind::try_from_bytes` is total over byte slices
of every length: `Ok(Big4)` exactly for the bytes of BIG4, `Ok(BigF)`
exactly for the bytes of BIGF, and for every other input (any length,
including empty) an `InvalidMagic` error carrying exactly the input bytes;
it never panics (the model is a total function into `Except`). -/
theorem kind_try_from_bytes_total (bytes : List Nat) :
    (Kind.try_from_bytes bytes = .ok .big4 ↔ bytes = magicBIG4) ∧
    (Kind.try_from_bytes bytes = .ok .bigF ↔ bytes = magicBIGF) ∧
    (bytes ≠ magicBIG4 → bytes ≠ magicBIGF →
      Kind.try_from_bytes bytes = .error (.InvalidMagic bytes)) := by
  by_cases h1 : bytes = magicBIG4
  · subst h1; decide
  · by_cases h2 : bytes = magicBIGF
    · subst h2; decide
    · simp [Kind.try_from_bytes, h1, h2]

/-- Witness for C10: the empty slice is classified as `InvalidMagic` carrying
the empty byte list. -/
theorem kind_try_from_bytes_total_witness :
    Kind.try_from_bytes [] = .error (.InvalidMagic []) :=
  (kind_try_from_bytes_total []).2.2 (by decide) (by decide)

/-- Claim C4 (confirmed): on every buffer of length at least 4 whose first
4 bytes are neither BIG4 nor BIGF, `read_kind` returns `InvalidMagic`
carrying exactly those 4 bytes. -/
theorem read_kind_invalid_magic (buf : Buffer) (h4 : 4 ≤ buf.length)
    (h1 : buf.take 4 ≠ magicBIG4) (h2 : buf.take 4 ≠ magicBIGF) :
    Archive.read_kind buf = .err (.InvalidMagic (buf.take 4)) := by
  simp [Archive.read_kind, h4, Kind.try_from_bytes, h1, h2]

/-- Witness for C4: the inputs from the spec — four spaces, and IB4G — each
fail with their own raw bytes. -/
theorem read_kind_invalid_magic_witness :
    Archive.read_kind [32, 32, 32, 32] = .err (.InvalidMagic [32, 32, 32, 32]) ∧
    Archive.read_kind [73, 66, 52, 71] = .err (.InvalidMagic [73, 66, 52, 71]) := by
  constructor
  · have h := read_kind_invalid_magic [32, 32, 32, 32] (by decide) (by decide) (by decide)
    simpa using h
  · have h := read_kind_invalid_magic [73, 66, 52, 71] (by decide) (by decide) (by decide)
    simpa using h

/-- Claim C9 (confirmed): packing the empty entry list returns
`AttemptCreateEmpty` (before any output is produced), for both kinds. -/
theorem pack_empty_rejected :
    pack [] Kind.big4 = .error .AttemptCreateEmpty ∧
    pack [] Kind.bigF = .error .AttemptCreateEmpty := ⟨rfl, rfl⟩

/-- Claim C5 (code_bug evidence): the reader panics — instead of returning
the typed length / out-of-bounds errors the claim requires — on each fixed
header-field read over a buffer too short for its field, and in
`get_bytes_via_table` on an entry whose `offset + len` exceeds the buffer. -/
theorem reader_panics_on_short_or_oob :
    Archive.read_kind [0] = .panic ∧
    Archive.read_size [66, 73, 71, 70] = .panic ∧
    Archive.read_len [66, 73, 71, 70, 0, 0, 0, 0] = .panic ∧
    Archive.read_data_start [0, 0, 0, 0, 0, 0, 0, 0, 0, 0, 0, 0] = .panic ∧
    Archive.get_bytes_via_table [66] [([97], ⟨0, 5, [97]⟩)] [97] = .panic := by
  decide

/-- Claim C6 (code_bug evidence): `read_secret_data` recomputes the table
size, returns `none` when `16 + table_size` equals `data_start`, returns the
gap slice when it is below `data_start` — but panics (instead of returning
the error the claim requires) when `16 + table_size` exceeds `data_start`
or `data_start` exceeds the buffer length. -/
theorem read_secret_data_cases :
    Archive.read_secret_data [66, 73, 71, 70, 0, 0, 0, 0, 0, 0, 0, 0, 0, 0, 0, 16] [] =
      .ok none ∧
    Archive.read_secret_data [66, 73, 71, 70, 0, 0, 0, 0, 0, 0, 0, 0, 0, 0, 0, 18, 9, 9] [] =
      .ok (some [9, 9]) ∧
    Archive.read_secret_data
      ([66, 73, 71, 70, 0, 0, 0, 0, 0, 0, 0, 1, 0, 0, 0, 28]
        ++ [0, 0, 0, 0, 0, 0, 0, 0, 97, 0] ++ [5, 5]) [([97], ⟨28, 0, [97]⟩)] =
      .ok (some [5, 5]) ∧
    Archive.read_secret_data [66, 73, 71, 70, 0, 0, 0, 0, 0, 0, 0, 0, 0, 0, 0, 12] [] =
      .panic ∧
    Archive.read_secret_data [66, 73, 71, 70, 0, 0, 0, 0, 0, 0, 0, 0, 0, 0, 0, 100] [] =
      .panic := by
  decide

/-- Claim C8 (confirmed): whenever the on-disk entry table parses, the
name-to-record map `read_entry_metadata_table` builds resolves every name to
the last record with that name in table order (later records overwrite
earlier ones), and every record's name is present in the map. -/
theorem read_table_last_wins (buf : Buffer) (n p : Nat) (rs : List EntryInfo)
    (hn : Archive.read_len buf = .ok n)
    (hp : parseRecords buf n 16 = .ok (rs, p)) :
    Archive.read_entry_metadata_table buf = .ok (buildTable rs) ∧
    (∀ k, tableGet (buildTable rs) k = lastNamed rs k) ∧
    (∀ r ∈ rs, (tableGet (buildTable rs) r.name).isSome = true) := by
  refine ⟨?_, fun k => tableGet_buildTable rs k, fun r hr => ?_⟩
  · simp [Archive.read_entry_metadata_table, hn, hp]
  · rw [tableGet_buildTable]
    exact lastNamed_isSome_of_mem rs r hr

/-- Witness for C8: a concrete table with two records both named "a"; the
map resolves "a" to the second (later) record. -/
theorem read_table_last_wins_witness :
    Archive.read_entry_metadata_table
      ([66, 73, 71, 70, 0, 0, 0, 0, 0, 0, 0, 2, 0, 0, 0, 0]
        ++ [0, 0, 0, 5, 0, 0, 0, 1, 97, 0] ++ [0, 0, 0, 9, 0, 0, 0, 2, 97, 0]) =
      .ok (buildTable [⟨5, 1, [97]⟩, ⟨9, 2, [97]⟩]) ∧
    tableGet (buildTable [⟨5, 1, [97]⟩, ⟨9, 2, [97]⟩]) [97] =
      lastNamed [⟨5, 1, [97]⟩, ⟨9, 2, [97]⟩] [97] ∧
    lastNamed [⟨5, 1, [97]⟩, ⟨9, 2, [97]⟩] [97] = some ⟨9, 2, [97]⟩ := by
  have h := read_table_last_wins
    ([66, 73, 71, 70, 0, 0, 0, 0, 0, 0, 0, 2, 0, 0, 0, 0]
      ++ [0, 0, 0, 5, 0, 0, 0, 1, 97, 0] ++ [0, 0, 0, 9, 0, 0, 0, 2, 97, 0])
    2 36 [⟨5, 1, [97]⟩, ⟨9, 2, [97]⟩] (by decide) (by decide)
  exact ⟨h.1, h.2.1 [97], by decide⟩

/-- Counterexample for C1: the entry list `[("a\0b", [7])]` has a unique,
non-empty name, yet after packing, the parsed table holds the name truncated
at the interior NUL ("a"), so fetching the original name returns `none`
instead of the original bytes. -/
theorem pack_roundtrip_nul_name_cex :
    pack [([97, 0, 98], [7])] Kind.bigF =
      .ok [66, 73, 71, 70, 29, 0, 0, 0, 0, 0, 0, 1, 0, 0, 0, 28,
           0, 0, 0, 28, 0, 0, 0, 1, 97, 0, 98, 0, 7] ∧
    Archive.read_entry_metadata_table
      [66, 73, 71, 70, 29, 0, 0, 0, 0, 0, 0, 1, 0, 0, 0, 28,
       0, 0, 0, 28, 0, 0, 0, 1, 97, 0, 98, 0, 7] = .ok [([97], ⟨28, 1, [97]⟩)] ∧
    Archive.get_bytes_via_table
      [66, 73, 71, 70, 29, 0, 0, 0, 0, 0, 0, 1, 0, 0, 0, 28,
       0, 0, 0, 28, 0, 0, 0, 1, 97, 0, 98, 0, 7]
      [([97], ⟨28, 1, [97]⟩)] [97, 0, 98] = .ok none ∧
    Archive.get_bytes_via_table
      [66, 73, 71, 70, 29, 0, 0, 0, 0, 0, 0, 1, 0, 0, 0, 28,
       0, 0, 0, 28, 0, 0, 0, 1, 97, 0, 98, 0, 7]
      [([97], ⟨28, 1, [97]⟩)] [97, 0, 98] ≠ .ok (some [7]) := by
  decide

/-- Counterexample for C7: stripping prefix "a" from the name "aab" removes
the prefix twice ("b"), not exactly once ("ab"). -/
theorem strip_exactly_once_cex :
    stripName (some [97]) [97, 97, 98] = [98] ∧
    stripName (some [97]) [97, 97, 98] ≠ [97, 98] := by
  decide

theorem trimAux_nil (f : Nat) (pat : List Nat) : trimAux f pat [] = [] := by
  cases f with
  | zero => rfl
  | succ f => cases pat <;> simp [trimAux, List.isPrefixOf]

theorem trimAux_congr : ∀ f g (pat s : List Nat), s.length ≤ f → s.length ≤ g →
    trimAux f pat s = trimAux g pat s := by
  intro f
  induction f with
  | zero =>
    intro g pat s hf _
    have hs : s = [] := List.length_eq_zero.mp (Nat.le_zero.mp hf)
    subst hs
    rw [trimAux_nil, trimAux_nil]
  | succ f ih =>
    intro g pat s hf hg
    cases s with
    | nil => rw [trimAux_nil, trimAux_nil]
    | cons b s' =>
      cases g with
      | zero => simp at hg
      | succ g =>
        show trimAux (f + 1) pat (b :: s') = trimAux (g + 1) pat (b :: s')
        by_cases hc : pat ≠ [] ∧ pat.isPrefixOf (b :: s')
        · rw [trimAux, trimAux, if_pos hc, if_pos hc]
          have hlenpat : 0 < pat.length := List.length_pos.mpr hc.1
          have hlenle : pat.length ≤ (b :: s').length :=
            (List.isPrefixOf_iff_prefix.mp hc.2).length_le
          refine ih g pat ((b :: s').drop pat.length) ?_ ?_ <;>
            simp only [List.length_drop, List.length_cons] at * <;> omega
        · rw [trimAux, trimAux, if_neg hc, if_neg hc]

theorem trim_of_not_isPrefixOf (pat s : List Nat) (h : ¬ pat.isPrefixOf s) :
    trim_left_matches pat s = s := by
  cases s with
  | nil => rfl
  | cons b s' =>
    rw [trim_left_matches]
    show trimAux (s'.length + 1) pat (b :: s') = b :: s'
    rw [trimAux, if_neg (fun hc => h hc.2)]

theorem trim_of_isPrefixOf (pat s : List Nat) (hne : pat ≠ []) (h : pat.isPrefixOf s) :
    trim_left_matches pat s = trim_left_matches pat (s.drop pat.length) := by
  have hlenpat : 0 < pat.length := List.length_pos.mpr hne
  have hlenle : pat.length ≤ s.length := (List.isPrefixOf_iff_prefix.mp h).length_le
  cases s with
  | nil =>
    have : pat = [] := by
      have := Nat.le_zero.mp hlenle
      exact List.length_eq_zero.mp this
    exact absurd this hne
  | cons b s' =>
    rw [trim_left_matches]
    show trimAux (s'.length + 1) pat (b :: s') = _
    rw [trimAux, if_pos ⟨hne, h⟩, trim_left_matches]
    refine trimAux_congr _ _ _ _ ?_ ?_ <;>
      simp only [List.length_drop, List.length_cons] at * <;> omega

theorem trim_result_not_isPrefixOf (pat : List Nat) (hne : pat ≠ []) :
    ∀ f s, s.length ≤ f → ¬ pat.isPrefixOf (trimAux f pat s) := by
  intro f
  induction f with
  | zero =>
    intro s hf
    have hs : s = [] := List.length_eq_zero.mp (Nat.le_zero.mp hf)
    subst hs
    rw [trimAux_nil]
    cases pat with
    | nil => exact absurd rfl hne
    | cons p ps => simp [List.isPrefixOf]
  | succ f ih =>
    intro s hf
    by_cases hc : pat ≠ [] ∧ pat.isPrefixOf s
    · rw [trimAux, if_pos hc]
      have hlenpat : 0 < pat.length := List.length_pos.mpr hne
      refine ih (s.drop pat.length) ?_
      simp [List.length_drop]
      omega
    · rw [trimAux, if_neg hc]
      intro hpre
      exact hc ⟨hne, hpre⟩

/-- Claim C7 amended theorem (corrected): the packer's name transform strips
the configured prefix repeatedly — as many leading literal occurrences as are
present (not exactly once, and not a regex); names that do not start with the
prefix are stored unchanged, and with no prefix configured names pass through
untouched. -/
theorem strip_repeated_removal (pat s : List Nat) :
    (¬ pat.isPrefixOf s → stripName (some pat) s = s) ∧
    (pat ≠ [] → pat.isPrefixOf s →
      stripName (some pat) s = stripName (some pat) (s.drop pat.length)) ∧
    (pat ≠ [] → ¬ pat.isPrefixOf (stripName (some pat) s)) ∧
    stripName none s = s := by
  refine ⟨fun h => trim_of_not_isPrefixOf pat s h,
    fun hne h => trim_of_isPrefixOf pat s hne h,
    fun hne => ?_, rfl⟩
  show ¬ pat.isPrefixOf (trim_left_matches pat s)
  rw [trim_left_matches]
  exact trim_result_not_isPrefixOf pat hne s.length s le_rfl

/-- Witness for C7's amended theorem: "bc" does not start with "a" and is
kept unchanged; stripping "a" from "aab" leaves a name that no longer starts
with "a". -/
theorem strip_repeated_removal_witness :
    stripName (some [97]) [98, 99] = [98, 99] ∧
    ¬ ([97].isPrefixOf (stripName (some [97]) [97, 97, 98])) := by
  refine ⟨(strip_repeated_removal [97] [98, 99]).1 (by decide),
    (strip_repeated_removal [97] [97, 97, 98]).2.2.1 (by decide)⟩

theorem u32FromBE?_encode (v : Nat) (rest : List Nat) :
    u32FromBE? (encodeBE32 v ++ rest) = some (v % 2 ^ 32) := by
  simp only [encodeBE32, List.cons_append, List.nil_append, u32FromBE?, beU32,
    Option.some.injEq]
  omega

theorem u32FromLE?_encode (v : Nat) (rest : List Nat) :
    u32FromLE? (encodeLE32 v ++ rest) = some (v % 2 ^ 32) := by
  simp only [encodeLE32, List.cons_append, List.nil_append, u32FromLE?, leU32,
    Option.some.injEq]
  omega

theorem encodeBE32_length (v : Nat) : (encodeBE32 v).length = 4 := rfl

theorem encodeLE32_length (v : Nat) : (encodeLE32 v).length = 4 := rfl

theorem kind_bytes_length (kind : Kind) : kind.bytes.length = 4 := by
  cases kind <;> rfl

theorem try_from_bytes_kind_bytes (kind : Kind) :
    Kind.try_from_bytes kind.bytes = .ok kind := by
  cases kind <;> decide

theorem sumLens_cons (e : List Nat × List Nat) (es : List (List Nat × List Nat)) :
    sumLens (e :: es) = e.2.length + sumLens es := by
  simp [sumLens]

theorem tableSz_cons (e : List Nat × List Nat) (es : List (List Nat × List Nat)) :
    tableSz (e :: es) = (4 + 4 + e.1.length + 1) + tableSz es := by
  simp [tableSz, recSize]

theorem writeTable_length : ∀ (es : List (List Nat × List Nat)) (off : Nat),
    (writeTable es off).length = tableSz es := by
  intro es
  induction es with
  | nil => intro off; rfl
  | cons e es ih =>
    intro off
    simp only [writeTable, List.length_append, encodeBE32_length, List.length_cons,
      List.length_nil, ih, tableSz_cons]

theorem len_le_tableSz (es : List (List Nat × List Nat)) : es.length ≤ tableSz es := by
  induction es with
  | nil => simp [tableSz]
  | cons e es ih =>
    rw [tableSz_cons, List.length_cons]
    omega

theorem takeUntilNul_append (name rest : List Nat) (h : (0 : Nat) ∉ name) :
    takeUntilNul (name ++ 0 :: rest) = name ++ [0] := by
  induction name with
  | nil => simp [takeUntilNul]
  | cons b bs ih =>
    have hb : ¬ b = 0 := fun hb => h (hb ▸ List.mem_cons_self b bs)
    simp only [List.cons_append, takeUntilNul, if_neg hb, List.append_eq]
    rw [ih (fun hm => h (List.mem_cons_of_mem b hm))]

theorem parseRecord_encode (pre name rest : List Nat) (off len : Nat)
    (hnul : (0 : Nat) ∉ name) :
    parseRecord (pre ++ (encodeBE32 off ++ (encodeBE32 len ++ (name ++ 0 :: rest))))
        pre.length =
      .ok (⟨off % 2 ^ 32, len % 2 ^ 32, name⟩, pre.length + 8 + (name.length + 1)) := by
  have h0 : (pre ++ (encodeBE32 off ++ (encodeBE32 len ++ (name ++ 0 :: rest)))).drop
      pre.length = encodeBE32 off ++ (encodeBE32 len ++ (name ++ 0 :: rest)) :=
    List.drop_left pre _
  have h4 : (pre ++ (encodeBE32 off ++ (encodeBE32 len ++ (name ++ 0 :: rest)))).drop
      (pre.length + 4) = encodeBE32 len ++ (name ++ 0 :: rest) := by
    rw [show pre ++ (encodeBE32 off ++ (encodeBE32 len ++ (name ++ 0 :: rest)))
        = (pre ++ encodeBE32 off) ++ (encodeBE32 len ++ (name ++ 0 :: rest)) by
      simp [List.append_assoc]]
    exact List.drop_left' (by simp [encodeBE32_length])
  have h8 : (pre ++ (encodeBE32 off ++ (encodeBE32 len ++ (name ++ 0 :: rest)))).drop
      (pre.length + 8) = name ++ 0 :: rest := by
    rw [show pre ++ (encodeBE32 off ++ (encodeBE32 len ++ (name ++ 0 :: rest)))
        = ((pre ++ encodeBE32 off) ++ encodeBE32 len) ++ (name ++ 0 :: rest) by
      simp [List.append_assoc]]
    exact List.drop_left' (by simp [encodeBE32_length])
  have hname : takeUntilNul (name ++ 0 :: rest) = name ++ [0] :=
    takeUntilNul_append name rest hnul
  have hlen : (name ++ [0]).length = name.length + 1 := by simp
  simp only [parseRecord, h0, h4, h8, u32FromBE?_encode, hname, hlen]
  rw [if_neg (by omega), Nat.add_sub_cancel, List.take_left' rfl]

theorem parseRecords_writeTable (es : List (List Nat × List Nat)) :
    ∀ (pre rest : List Nat) (off : Nat), (∀ e ∈ es, (0 : Nat) ∉ e.1) →
    parseRecords (pre ++ (writeTable es off ++ rest)) es.length pre.length =
      .ok (readRecs es off, pre.length + tableSz es) := by
  induction es with
  | nil =>
    intro pre rest off _
    simp [parseRecords, readRecs, tableSz]
  | cons e es ih =>
    intro pre rest off hnul
    have hnul_e : (0 : Nat) ∉ e.1 := hnul e (List.mem_cons_self e es)
    have hnul' : ∀ x ∈ es, (0 : Nat) ∉ x.1 :=
      fun x hx => hnul x (List.mem_cons_of_mem e hx)
    have hbuf : pre ++ (writeTable (e :: es) off ++ rest)
        = pre ++ (encodeBE32 off ++ (encodeBE32 e.2.length
            ++ (e.1 ++ 0 :: (writeTable es (off + e.2.length) ++ rest)))) := by
      simp [writeTable, List.append_assoc]
    have hpre' : (pre ++ (encodeBE32 off ++ (encodeBE32 e.2.length ++ (e.1 ++ [0])))).length
        = pre.length + 8 + (e.1.length + 1) := by
      simp [encodeBE32_length]
      omega
    have hih := ih (pre ++ (encodeBE32 off ++ (encodeBE32 e.2.length ++ (e.1 ++ [0]))))
      rest (off + e.2.length) hnul'
    rw [hpre'] at hih
    have hbuf2 : (pre ++ (encodeBE32 off ++ (encodeBE32 e.2.length ++ (e.1 ++ [0]))))
        ++ (writeTable es (off + e.2.length) ++ rest)
        = pre ++ (encodeBE32 off ++ (encodeBE32 e.2.length
            ++ (e.1 ++ 0 :: (writeTable es (off + e.2.length) ++ rest)))) := by
      simp [List.append_assoc]
    rw [hbuf2] at hih
    rw [hbuf, List.length_cons]
    simp only [parseRecords, parseRecord_encode pre e.1 _ off e.2.length hnul_e, hih]
    simp only [readRecs, tableSz_cons, PResult.ok.injEq, Prod.mk.injEq]
    exact ⟨by trivial, by omega⟩

theorem readRecs_names : ∀ (es : List (List Nat × List Nat)) (off : Nat),
    (readRecs es off).map EntryInfo.name = es.map (fun e => e.1) := by
  intro es
  induction es with
  | nil => intro off; rfl
  | cons e es ih => intro off; simp [readRecs, ih]

theorem readRecs_spec : ∀ (es : List (List Nat × List Nat)) (off : Nat) (pre : List Nat),
    pre.length = off → off + sumLens es < 2 ^ 32 →
    ∀ e ∈ es, ∃ r, r ∈ readRecs es off ∧ r.name = e.1 ∧ r.len = e.2.length ∧
      r.offset + r.len ≤ off + sumLens es ∧
      ((pre ++ (es.map (fun x => x.2)).flatten).drop r.offset).take r.len = e.2 := by
  intro es
  induction es with
  | nil => intro off pre _ _ e he; cases he
  | cons x es ih =>
    intro off pre hpre hfit e he
    rw [sumLens_cons] at hfit
    rcases List.mem_cons.mp he with hx | hm
    · subst hx
      have hoff : off % 2 ^ 32 = off := Nat.mod_eq_of_lt (by omega)
      have hlen : e.2.length % 2 ^ 32 = e.2.length := Nat.mod_eq_of_lt (by omega)
      refine ⟨⟨off % 2 ^ 32, e.2.length % 2 ^ 32, e.1⟩,
        List.mem_cons_self _ _, rfl, hlen, ?_, ?_⟩
      · rw [sumLens_cons]
        simp only [hoff, hlen]
        omega
      · simp only [hoff, hlen, List.map_cons, List.flatten_cons]
        rw [show pre ++ (e.2 ++ (es.map (fun x => x.2)).flatten)
            = (pre ++ e.2) ++ (es.map (fun x => x.2)).flatten by simp [List.append_assoc]]
        rw [show ((pre ++ e.2) ++ (es.map (fun x => x.2)).flatten).drop off
            = e.2 ++ (es.map (fun x => x.2)).flatten from ?_]
        · exact List.take_left e.2 _
        · rw [show (pre ++ e.2) ++ (es.map (fun x => x.2)).flatten
              = pre ++ (e.2 ++ (es.map (fun x => x.2)).flatten) by simp [List.append_assoc],
            ← hpre]
          exact List.drop_left pre _
    · have hih := ih (off + x.2.length) (pre ++ x.2) (by simp [hpre]) (by omega) e hm
      rcases hih with ⟨r, hmem, hn, hl, hb, hs⟩
      refine ⟨r, List.mem_cons_of_mem _ hmem, hn, hl, ?_, ?_⟩
      · rw [sumLens_cons]; omega
      · rw [show pre ++ ((x :: es).map (fun x => x.2)).flatten
            = (pre ++ x.2) ++ (es.map (fun x => x.2)).flatten by
          simp [List.append_assoc]]
        exact hs

theorem pack_ok_eq (entries : List (List Nat × List Nat)) (kind : Kind) (buf : Buffer)
    (h : pack entries kind = .ok buf) :
    entries ≠ [] ∧
    buf = kind.bytes ++ (encodeLE32 (16 + tableSz entries + sumLens entries)
      ++ (encodeBE32 entries.length ++ (encodeBE32 (16 + tableSz entries)
      ++ (writeTable entries (16 + tableSz entries)
      ++ (entries.map (fun e => e.2)).flatten)))) := by
  by_cases he : entries = []
  · subst he
    rw [pack, if_pos rfl] at h
    cases h
  · rw [pack, if_neg he] at h
    injection h with h
    exact ⟨he, by rw [← h]; simp [List.append_assoc]⟩

theorem pack_buf_length (entries : List (List Nat × List Nat)) (kind : Kind)
    (buf : Buffer) (h : pack entries kind = .ok buf) :
    buf.length = 16 + tableSz entries + sumLens entries := by
  obtain ⟨-, hbuf⟩ := pack_ok_eq entries kind buf h
  subst hbuf
  simp only [List.length_append, kind_bytes_length, encodeLE32_length, encodeBE32_length,
    writeTable_length, List.length_flatten, List.map_map]
  have hfun : (List.map (List.length ∘ fun e : List Nat × List Nat => e.2) entries).sum
      = sumLens entries := rfl
  rw [hfun]
  omega

/-- Claim C2 (confirmed): for every entry list `pack` accepts, the produced
archive stores `data_start = 16 + Σ (8 + len(name) + 1)` (there is no secret
data: `pack` never writes any, so its length is 0) as a big-endian u32 at
offset 12, and `total_size = data_start + Σ len` as a little-endian u32 at
offset 4; reading the fields back yields those values as stored u32s. -/
theorem pack_header_arithmetic (entries : List (List Nat × List Nat)) (kind : Kind)
    (buf : Buffer) (h : pack entries kind = .ok buf) :
    (buf.drop 12).take 4 = encodeBE32 (16 + tableSz entries) ∧
    (buf.drop 4).take 4 = encodeLE32 (16 + tableSz entries + sumLens entries) ∧
    Archive.read_data_start buf = .ok ((16 + tableSz entries) % 2 ^ 32) ∧
    Archive.read_size buf = .ok ((16 + tableSz entries + sumLens entries) % 2 ^ 32) := by
  obtain ⟨he, hbuf⟩ := pack_ok_eq entries kind buf h
  subst hbuf
  have hd4 : (kind.bytes ++ (encodeLE32 (16 + tableSz entries + sumLens entries)
      ++ (encodeBE32 entries.length ++ (encodeBE32 (16 + tableSz entries)
      ++ (writeTable entries (16 + tableSz entries)
      ++ (entries.map (fun e => e.2)).flatten))))).drop 4
      = encodeLE32 (16 + tableSz entries + sumLens entries)
        ++ (encodeBE32 entries.length ++ (encodeBE32 (16 + tableSz entries)
        ++ (writeTable entries (16 + tableSz entries)
        ++ (entries.map (fun e => e.2)).flatten))) :=
    List.drop_left' (kind_bytes_length kind)
  have hd12 : (kind.bytes ++ (encodeLE32 (16 + tableSz entries + sumLens entries)
      ++ (encodeBE32 entries.length ++ (encodeBE32 (16 + tableSz entries)
      ++ (writeTable entries (16 + tableSz entries)
      ++ (entries.map (fun e => e.2)).flatten))))).drop 12
      = encodeBE32 (16 + tableSz entries)
        ++ (writeTable entries (16 + tableSz entries)
        ++ (entries.map (fun e => e.2)).flatten) := by
    rw [show kind.bytes ++ (encodeLE32 (16 + tableSz entries + sumLens entries)
        ++ (encodeBE32 entries.length ++ (encodeBE32 (16 + tableSz entries)
        ++ (writeTable entries (16 + tableSz entries)
        ++ (entries.map (fun e => e.2)).flatten))))
        = (kind.bytes ++ encodeLE32 (16 + tableSz entries + sumLens entries)
            ++ encodeBE32 entries.length)
          ++ (encodeBE32 (16 + tableSz entries)
            ++ (writeTable entries (16 + tableSz entries)
            ++ (entries.map (fun e => e.2)).flatten)) by simp [List.append_assoc]]
    exact List.drop_left' (by
      simp [kind_bytes_length, encodeLE32_length, encodeBE32_length])
  refine ⟨?_, ?_, ?_, ?_⟩
  · rw [hd12]
    exact List.take_left' (encodeBE32_length _)
  · rw [hd4]
    exact List.take_left' (encodeLE32_length _)
  · rw [Archive.read_data_start, hd12, u32FromBE?_encode]
  · rw [Archive.read_size, hd4, u32FromLE?_encode]

/-- Witness for C2: a concrete one-entry pack; `data_start = 26` is stored
big-endian at offset 12 and `total_size = 28` little-endian at offset 4. -/
theorem pack_header_arithmetic_witness :
    (([66, 73, 71, 70, 28, 0, 0, 0, 0, 0, 0, 1, 0, 0, 0, 26,
       0, 0, 0, 26, 0, 0, 0, 2, 97, 0, 1, 2] : Buffer).drop 12).take 4 =
      encodeBE32 (16 + tableSz [([97], [1, 2])]) ∧
    (([66, 73, 71, 70, 28, 0, 0, 0, 0, 0, 0, 1, 0, 0, 0, 26,
       0, 0, 0, 26, 0, 0, 0, 2, 97, 0, 1, 2] : Buffer).drop 4).take 4 =
      encodeLE32 (16 + tableSz [([97], [1, 2])] + sumLens [([97], [1, 2])]) ∧
    Archive.read_data_start
      [66, 73, 71, 70, 28, 0, 0, 0, 0, 0, 0, 1, 0, 0, 0, 26,
       0, 0, 0, 26, 0, 0, 0, 2, 97, 0, 1, 2] =
      .ok ((16 + tableSz [([97], [1, 2])]) % 2 ^ 32) ∧
    Archive.read_size
      [66, 73, 71, 70, 28, 0, 0, 0, 0, 0, 0, 1, 0, 0, 0, 26,
       0, 0, 0, 26, 0, 0, 0, 2, 97, 0, 1, 2] =
      .ok ((16 + tableSz [([97], [1, 2])] + sumLens [([97], [1, 2])]) % 2 ^ 32) :=
  pack_header_arithmetic [([97], [1, 2])] Kind.bigF _ (by decide)

theorem packOffsets_contiguous (es : List (List Nat × List Nat)) : ∀ (off i : Nat),
    i + 1 < es.length →
    (packOffsets es off).getD (i + 1) 0 =
      (packOffsets es off).getD i 0 + (es.getD i ([], [])).2.length := by
  induction es with
  | nil => intro off i hi; simp at hi
  | cons e es ih =>
    intro off i hi
    cases i with
    | zero =>
      cases es with
      | nil => simp at hi
      | cons x xs => simp [packOffsets, List.getD_cons_zero, List.getD_cons_succ]
    | succ j =>
      simp only [packOffsets, List.getD_cons_succ]
      exact ih (off + e.2.length) j (by simp only [List.length_cons] at hi; omega)

/-- Claim C3 (confirmed): for every archive `pack` produces, the offset
recorded for the first entry is `data_start = 16 + table_size`, each later
entry's recorded offset is the previous entry's offset plus its length
(payloads are contiguous in table order), and the archive's table region
consists exactly of those records (`writeTable`, which stores each offset as
a big-endian u32). -/
theorem pack_offset_contiguity (entries : List (List Nat × List Nat)) (kind : Kind)
    (buf : Buffer) (h : pack entries kind = .ok buf) :
    (packOffsets entries (16 + tableSz entries)).head? = some (16 + tableSz entries) ∧
    (∀ i, i + 1 < entries.length →
      (packOffsets entries (16 + tableSz entries)).getD (i + 1) 0 =
        (packOffsets entries (16 + tableSz entries)).getD i 0 +
          (entries.getD i ([], [])).2.length) ∧
    (buf.drop 16).take (tableSz entries) = writeTable entries (16 + tableSz entries) := by
  obtain ⟨he, hbuf⟩ := pack_ok_eq entries kind buf h
  refine ⟨?_, fun i hi => packOffsets_contiguous entries _ i hi, ?_⟩
  · cases entries with
    | nil => exact absurd rfl he
    | cons e es => rfl
  · subst hbuf
    rw [show kind.bytes ++ (encodeLE32 (16 + tableSz entries + sumLens entries)
        ++ (encodeBE32 entries.length ++ (encodeBE32 (16 + tableSz entries)
        ++ (writeTable entries (16 + tableSz entries)
        ++ (entries.map (fun e => e.2)).flatten))))
        = (kind.bytes ++ encodeLE32 (16 + tableSz entries + sumLens entries)
            ++ encodeBE32 entries.length ++ encodeBE32 (16 + tableSz entries))
          ++ (writeTable entries (16 + tableSz entries)
            ++ (entries.map (fun e => e.2)).flatten) by simp [List.append_assoc]]
    rw [List.drop_left' (by
      simp [kind_bytes_length, encodeLE32_length, encodeBE32_length])]
    exact List.take_left' (writeTable_length entries _)

/-- Witness for C3: a concrete two-entry pack; the recorded offsets are 36
and 38 with lengths 2 and 1, and the table region is byte-identical to the
records written. -/
theorem pack_offset_contiguity_witness :
    (packOffsets [([97], [1, 2]), ([98], [3])]
        (16 + tableSz [([97], [1, 2]), ([98], [3])])).head? =
      some (16 + tableSz [([97], [1, 2]), ([98], [3])]) ∧
    (∀ i, i + 1 < ([([97], [1, 2]), ([98], [3])] : List (List Nat × List Nat)).length →
      (packOffsets [([97], [1, 2]), ([98], [3])]
          (16 + tableSz [([97], [1, 2]), ([98], [3])])).getD (i + 1) 0 =
        (packOffsets [([97], [1, 2]), ([98], [3])]
            (16 + tableSz [([97], [1, 2]), ([98], [3])])).getD i 0 +
          (([([97], [1, 2]), ([98], [3])] : List (List Nat × List Nat)).getD
            i ([], [])).2.length) ∧
    (([66, 73, 71, 70, 39, 0, 0, 0, 0, 0, 0, 2, 0, 0, 0, 36,
       0, 0, 0, 36, 0, 0, 0, 2, 97, 0, 0, 0, 0, 38, 0, 0, 0, 1, 98, 0,
       1, 2, 3] : Buffer).drop 16).take (tableSz [([97], [1, 2]), ([98], [3])]) =
      writeTable [([97], [1, 2]), ([98], [3])]
        (16 + tableSz [([97], [1, 2]), ([98], [3])]) :=
  pack_offset_contiguity [([97], [1, 2]), ([98], [3])] Kind.bigF _ (by decide)

/-- Claim C1 amended theorem (corrected): for every entry list with unique,
non-empty names that contain no NUL byte, and whose packed size fits the u32
header fields, packing and then reading the table back returns exactly the
original bytes for each name, `read_kind` returns the kind passed to `pack`,
and `read_len` returns the number of entries. -/
theorem pack_roundtrip_amended (entries : List (List Nat × List Nat)) (kind : Kind)
    (buf : Buffer) (hok : pack entries kind = .ok buf)
    (hnul : ∀ e ∈ entries, (0 : Nat) ∉ e.1)
    (hne : ∀ e ∈ entries, e.1 ≠ [])
    (huniq : (entries.map (fun e => e.1)).Nodup)
    (hfit : 16 + tableSz entries + sumLens entries < 2 ^ 32) :
    Archive.read_kind buf = .ok kind ∧
    Archive.read_len buf = .ok entries.length ∧
    ∃ table, Archive.read_entry_metadata_table buf = .ok table ∧
      ∀ e ∈ entries, Archive.get_bytes_via_table buf table e.1 = .ok (some e.2) := by
  have hlen := pack_buf_length entries kind buf hok
  obtain ⟨he, hbuf⟩ := pack_ok_eq entries kind buf hok
  have hkind : Archive.read_kind buf = .ok kind := by
    have htake : buf.take 4 = kind.bytes := by
      rw [hbuf]; exact List.take_left' (kind_bytes_length kind)
    rw [Archive.read_kind, if_pos (by omega), htake, try_from_bytes_kind_bytes]
  have hd8 : buf.drop 8 = encodeBE32 entries.length
      ++ (encodeBE32 (16 + tableSz entries)
      ++ (writeTable entries (16 + tableSz entries)
      ++ (entries.map (fun e => e.2)).flatten)) := by
    rw [hbuf, show kind.bytes ++ (encodeLE32 (16 + tableSz entries + sumLens entries)
        ++ (encodeBE32 entries.length ++ (encodeBE32 (16 + tableSz entries)
        ++ (writeTable entries (16 + tableSz entries)
        ++ (entries.map (fun e => e.2)).flatten))))
        = (kind.bytes ++ encodeLE32 (16 + tableSz entries + sumLens entries))
          ++ (encodeBE32 entries.length ++ (encodeBE32 (16 + tableSz entries)
          ++ (writeTable entries (16 + tableSz entries)
          ++ (entries.map (fun e => e.2)).flatten))) by simp [List.append_assoc]]
    exact List.drop_left' (by simp [kind_bytes_length, encodeLE32_length])
  have hcount : Archive.read_len buf = .ok entries.length := by
    rw [Archive.read_len, hd8, u32FromBE?_encode,
      Nat.mod_eq_of_lt (by have := len_le_tableSz entries; omega)]
  have hparse : parseRecords buf entries.length 16 =
      .ok (readRecs entries (16 + tableSz entries), 16 + tableSz entries) := by
    have h16 : (kind.bytes ++ (encodeLE32 (16 + tableSz entries + sumLens entries)
        ++ (encodeBE32 entries.length ++ encodeBE32 (16 + tableSz entries)))).length
        = 16 := by
      simp [kind_bytes_length, encodeLE32_length, encodeBE32_length]
    have hsplit : buf = (kind.bytes ++ (encodeLE32 (16 + tableSz entries + sumLens entries)
        ++ (encodeBE32 entries.length ++ encodeBE32 (16 + tableSz entries))))
        ++ (writeTable entries (16 + tableSz entries)
          ++ (entries.map (fun e => e.2)).flatten) := by
      rw [hbuf]; simp [List.append_assoc]
    have := parseRecords_writeTable entries
      (kind.bytes ++ (encodeLE32 (16 + tableSz entries + sumLens entries)
        ++ (encodeBE32 entries.length ++ encodeBE32 (16 + tableSz entries))))
      ((entries.map (fun e => e.2)).flatten) (16 + tableSz entries) hnul
    rw [h16] at this
    rw [hsplit, this]
  have htable : Archive.read_entry_metadata_table buf =
      .ok (buildTable (readRecs entries (16 + tableSz entries))) := by
    simp only [Archive.read_entry_metadata_table, hcount, hparse]
  refine ⟨hkind, hcount, buildTable (readRecs entries (16 + tableSz entries)),
    htable, fun e hmem => ?_⟩
  have hndrec : ((readRecs entries (16 + tableSz entries)).map EntryInfo.name).Nodup := by
    rw [readRecs_names]; exact huniq
  have hsplit2 : buf = ((kind.bytes ++ (encodeLE32 (16 + tableSz entries + sumLens entries)
      ++ (encodeBE32 entries.length ++ encodeBE32 (16 + tableSz entries))))
      ++ writeTable entries (16 + tableSz entries))
      ++ (entries.map (fun e => e.2)).flatten := by
    rw [hbuf]; simp [List.append_assoc]
  have hprelen : ((kind.bytes ++ (encodeLE32 (16 + tableSz entries + sumLens entries)
      ++ (encodeBE32 entries.length ++ encodeBE32 (16 + tableSz entries))))
      ++ writeTable entries (16 + tableSz entries)).length = 16 + tableSz entries := by
    simp [kind_bytes_length, encodeLE32_length, encodeBE32_length, writeTable_length]
    omega
  obtain ⟨r, hrmem, hrname, hrlen, hrbound, hrslice⟩ :=
    readRecs_spec entries (16 + tableSz entries)
      ((kind.bytes ++ (encodeLE32 (16 + tableSz entries + sumLens entries)
        ++ (encodeBE32 entries.length ++ encodeBE32 (16 + tableSz entries))))
        ++ writeTable entries (16 + tableSz entries))
      hprelen (by omega) e hmem
  have hget : tableGet (buildTable (readRecs entries (16 + tableSz entries))) e.1 =
      some r := by
    rw [tableGet_buildTable, ← hrname]
    exact lastNamed_of_nodup _ r hrmem hndrec
  simp only [Archive.get_bytes_via_table, hget]
  rw [if_pos (by rw [hlen]; omega)]
  rw [← hsplit2] at hrslice
  rw [hrslice]

/-- Witness for C1's amended theorem: a concrete two-entry pack round-trips:
kind, count and both entries' bytes are recovered. -/
theorem pack_roundtrip_amended_witness :
    Archive.read_kind
      [66, 73, 71, 70, 41, 0, 0, 0, 0, 0, 0, 2, 0, 0, 0, 36,
       0, 0, 0, 36, 0, 0, 0, 2, 97, 0, 0, 0, 0, 38, 0, 0, 0, 3, 98, 0,
       1, 2, 3, 4, 5] = .ok Kind.bigF ∧
    Archive.read_len
      [66, 73, 71, 70, 41, 0, 0, 0, 0, 0, 0, 2, 0, 0, 0, 36,
       0, 0, 0, 36, 0, 0, 0, 2, 97, 0, 0, 0, 0, 38, 0, 0, 0, 3, 98, 0,
       1, 2, 3, 4, 5] = .ok 2 ∧
    ∃ table, Archive.read_entry_metadata_table
      [66, 73, 71, 70, 41, 0, 0, 0, 0, 0, 0, 2, 0, 0, 0, 36,
       0, 0, 0, 36, 0, 0, 0, 2, 97, 0, 0, 0, 0, 38, 0, 0, 0, 3, 98, 0,
       1, 2, 3, 4, 5] = .ok table ∧
      ∀ e ∈ ([([97], [1, 2]), ([98], [3, 4, 5])] : List (List Nat × List Nat)),
        Archive.get_bytes_via_table
          [66, 73, 71, 70, 41, 0, 0, 0, 0, 0, 0, 2, 0, 0, 0, 36,
           0, 0, 0, 36, 0, 0, 0, 2, 97, 0, 0, 0, 0, 38, 0, 0, 0, 3, 98, 0,
           1, 2, 3, 4, 5] table e.1 = .ok (some e.2) := by
  have h := pack_roundtrip_amended [([97], [1, 2]), ([98], [3, 4, 5])] Kind.bigF
    [66, 73, 71, 70, 41, 0, 0, 0, 0, 0, 0, 2, 0, 0, 0, 36,
     0, 0, 0, 36, 0, 0, 0, 2, 97, 0, 0, 0, 0, 38, 0, 0, 0, 3, 98, 0,
     1, 2, 3, 4, 5]
    (by decide) (by decide) (by decide) (by decide) (by decide)
  exact h

end Easage
